import Mathlib

/-!
# AkiEstimate — verification of the Love-wave inversion driver

Shallow embedding of the `invert` optimization loop of
`src/InitialPhase/optimizer/optimizelove.cpp`.

The repository source contains only the driver (`invert` and `main`).  The
collaborators it calls — `likelihood_love`, the two `LeastSquaresIterator`
step strategies (`SimpleStep`, `QuasiNewton`), `LeastSquaresIterator::copy`,
`LeastSquaresIterator::validate` and the constant `EPSILON_MIN` — live in
headers that are not part of the repository snapshot.  Following the spec,
they are abstracted as parameters of a `Config` record (the spec states that
`likelihood_love` is a pure function of data and model plus fixed
configuration, so it is modelled as a Lean function), and the model/vector
copy operations are modelled from the spec's description of `model_t` and
`LeastSquaresIterator::copy` (see `Model`, `copyToVector`, `copyToModel`).

Real numbers (`double`) are modelled by `ℚ`; the only arithmetic the driver
itself performs on them is multiplication by 0.5 and comparisons, which `ℚ`
represents exactly.
-/

namespace AkiEstimate

/-- Modelled from the spec: `model_t` is a structured model whose flattened
free parameters form a dense vector (`V`) while the remaining slots are fixed
(`F`); `LeastSquaresIterator::copy` writes the free-parameter vector, leaving
fixed slots untouched, and the two copy directions are inverses on the free
slots. -/
structure Model (V F : Type) where
  free : V
  fixed : F

/-- Modelled from the spec: `LeastSquaresIterator::copy(model, v, mask)` —
flattens the structured model into the dense vector of free parameters. -/
def copyToVector {V F : Type} (m : Model V F) : V := m.free

/-- Modelled from the spec: `LeastSquaresIterator::copy(v, model)` — writes a
dense free-parameter vector back into the structured model, leaving fixed
slots untouched. -/
def copyToModel {V F : Type} (v : V) (m : Model V F) : Model V F :=
  { m with free := v }

/-- The fixed-configuration arguments of a `likelihood_love` call, in the
order they appear at the call sites (after the data/model/reference/solver
state arguments, which are the varying part). -/
structure LikeArgs where
  damping : Fin 4 → ℚ
  posterior : Bool
  threshold : ℚ
  order : ℚ
  highorder : ℚ
  boundaryorder : ℚ
  scale : ℚ
  frequency_thin : ℚ

/-- The environment of one `invert` call: the abstracted external
collaborators together with the scalar arguments `invert` receives.

`likelihood` abstracts `likelihood_love`: per the spec it is a pure function
of the model plus the fixed configuration (the dispersion data, reference
model and solver scratch state are fixed for the run and absorbed here), and
its side outputs `G`, `residuals`, `Cd`, `dLdp` are therefore also functions
of the model last evaluated.  `computeStepOk` and `computeStepProposal`
abstract the boolean result and the `model_v_proposed` output of
`step[m]->ComputeStep(epsilon[m], Cd, Cm, residuals, G, dLdp, mask, model_v,
model_0, model_v_proposed)`: every matrix argument is either fixed for the
run (`Cm`, `model_0`, mask) or a function of the current model as just
explained, so both are modelled as functions of the strategy index, the
current epsilon and the current model.  `validate` abstracts
`LeastSquaresIterator::validate` with the fixed `PRIOR_MIN`/`PRIOR_MAX`
bounds absorbed.  `epsilonMin` is the constant `EPSILON_MIN` from the
(absent) header. -/
structure Config (V F : Type) where
  likelihood : LikeArgs → Model V F → ℚ
  computeStepOk : Fin 2 → ℚ → Model V F → Bool
  computeStepProposal : Fin 2 → ℚ → Model V F → V
  validate : V → Bool
  damping : Fin 4 → ℚ
  posterior : Bool
  threshold : ℚ
  order : ℚ
  highorder : ℚ
  boundaryorder : ℚ
  scale : ℚ
  epsilon0 : ℚ
  maxiterations : ℕ
  mode : ℤ
  epsilonMin : ℚ

/-- Local variable `double frequency_thin = 0.001;` of `invert`. -/
def frequencyThin : ℚ := 1 / 1000

/-- The configuration arguments passed at the initial `likelihood_love`
call (before the loop). -/
def initCallArgs {V F : Type} (cfg : Config V F) : LikeArgs :=
  { damping := cfg.damping
    posterior := cfg.posterior
    threshold := cfg.threshold
    order := cfg.order
    highorder := cfg.highorder
    boundaryorder := cfg.boundaryorder
    scale := cfg.scale
    frequency_thin := frequencyThin }

/-- The configuration arguments passed at the per-iteration
`likelihood_love` call (after the proposal is written into the model). -/
def evalCallArgs {V F : Type} (cfg : Config V F) : LikeArgs :=
  { damping := cfg.damping
    posterior := cfg.posterior
    threshold := cfg.threshold
    order := cfg.order
    highorder := cfg.highorder
    boundaryorder := cfg.boundaryorder
    scale := cfg.scale
    frequency_thin := frequencyThin }

/-- The configuration arguments passed at the backtracking
`likelihood_love` call (after the model is restored from `model_v`). -/
def backtrackCallArgs {V F : Type} (cfg : Config V F) : LikeArgs :=
  { damping := cfg.damping
    posterior := cfg.posterior
    threshold := cfg.threshold
    order := cfg.order
    highorder := cfg.highorder
    boundaryorder := cfg.boundaryorder
    scale := cfg.scale
    frequency_thin := frequencyThin }

/-- The mutable state of the `invert` loop: the live model, the snapshot
vector `model_v`, the candidate vector `model_v_proposed`, the two step-size
scalars `epsilon[2]`, the misfit values `like` and `last_like`, and the
iteration counter. -/
structure St (V F : Type) where
  model : Model V F
  model_v : V
  model_v_proposed : V
  epsilon : Fin 2 → ℚ
  like : ℚ
  last_like : ℚ
  iterations : ℕ

/-- Strategy index selected at the top of each outer pass:
`int m = iterations % 2;`. -/
def mIdx {V F : Type} (s : St V F) : Fin 2 :=
  ⟨s.iterations % 2, Nat.mod_lt _ (by omega)⟩

/-- The inner prior-validation retry loop (`do { ... } while (!valid);`,
lines 508–529): copy the model into `model_v`, call `ComputeStep` (its
boolean result is bound but not branched on — the `if` body in the source is
empty), validate the proposal, and on rejection halve `epsilon[m]` and
retry.  The source loop has no escape condition, so the embedding takes a
fuel argument and returns `none` when fuel runs out. -/
def retryStep {V F : Type} (cfg : Config V F) (m : Fin 2) :
    ℕ → St V F → Option (St V F)
  | 0, _ => none
  | Nat.succ fuel, s =>
    let model_v := copyToVector s.model
    let _ok := cfg.computeStepOk m (s.epsilon m) s.model
    let proposed := cfg.computeStepProposal m (s.epsilon m) s.model
    let s1 := { s with model_v := model_v, model_v_proposed := proposed }
    if cfg.validate proposed then
      some s1
    else
      retryStep cfg m fuel
        { s1 with epsilon := Function.update s1.epsilon m (s1.epsilon m * (1/2)) }

/-- Which branch a single outer-loop pass took. -/
inductive Branch where
  | accepted
  | backtracked
  | exited
  deriving DecidableEq, Repr

/-- One pass of the outer `do { ... } while (iterations < maxiterations);`
loop body (lines 500–599): run the retry loop, write the accepted proposal
into the model (`copy(model_v_proposed, model)`), recompute the misfit, and
either exit (worse misfit and `epsilon[m] < EPSILON_MIN`), backtrack (worse
misfit: halve `epsilon[m]`, restore the model from `model_v`, recompute the
misfit, leave the counter alone), or accept (increment the counter).
Returns `none` when the retry loop exhausts its fuel. -/
def outerPass {V F : Type} (cfg : Config V F) (fuel : ℕ) (s : St V F) :
    Option (Branch × St V F) :=
  match retryStep cfg (mIdx s) fuel s with
  | none => none
  | some s1 =>
    if s1.like < cfg.likelihood (evalCallArgs cfg) (copyToModel s1.model_v_proposed s1.model) then
      if s1.epsilon (mIdx s) < cfg.epsilonMin then
        some (Branch.exited,
          { s1 with
              model := copyToModel s1.model_v_proposed s1.model
              like := cfg.likelihood (evalCallArgs cfg) (copyToModel s1.model_v_proposed s1.model)
              last_like := s1.like })
      else
        some (Branch.backtracked,
          { s1 with
              epsilon := Function.update s1.epsilon (mIdx s) (s1.epsilon (mIdx s) * (1/2))
              model := copyToModel s1.model_v (copyToModel s1.model_v_proposed s1.model)
              like := cfg.likelihood (backtrackCallArgs cfg)
                        (copyToModel s1.model_v (copyToModel s1.model_v_proposed s1.model))
              last_like := s1.like })
    else
      some (Branch.accepted,
        { s1 with
            model := copyToModel s1.model_v_proposed s1.model
            like := cfg.likelihood (evalCallArgs cfg) (copyToModel s1.model_v_proposed s1.model)
            last_like := s1.like
            iterations := s1.iterations + 1 })

/-- The outer loop driver: repeats `outerPass` while
`iterations < maxiterations`, stopping immediately on the exit branch
(`break`).  `outerFuel` bounds the number of passes (the pass count is
finite, see the termination theorem); `none` means fuel ran out somewhere. -/
def runLoop {V F : Type} (cfg : Config V F) (innerFuel : ℕ) :
    ℕ → St V F → Option (St V F)
  | 0, _ => none
  | Nat.succ n, s =>
    match outerPass cfg innerFuel s with
    | none => none
    | some (Branch.exited, s') => some s'
    | some (Branch.accepted, s') =>
      if s'.iterations < cfg.maxiterations then runLoop cfg innerFuel n s'
      else some s'
    | some (Branch.backtracked, s') =>
      if s'.iterations < cfg.maxiterations then runLoop cfg innerFuel n s'
      else some s'

/-- Like `runLoop`, but records every pass as a triple
(state before, branch taken, state after). -/
def runTrace {V F : Type} (cfg : Config V F) (innerFuel : ℕ) :
    ℕ → St V F → Option (List (St V F × Branch × St V F))
  | 0, _ => none
  | Nat.succ n, s =>
    match outerPass cfg innerFuel s with
    | none => none
    | some (Branch.exited, s') => some [(s, Branch.exited, s')]
    | some (Branch.accepted, s') =>
      if s'.iterations < cfg.maxiterations then
        (runTrace cfg innerFuel n s').map (fun t => (s, Branch.accepted, s') :: t)
      else some [(s, Branch.accepted, s')]
    | some (Branch.backtracked, s') =>
      if s'.iterations < cfg.maxiterations then
        (runTrace cfg innerFuel n s').map (fun t => (s, Branch.backtracked, s') :: t)
      else some [(s, Branch.backtracked, s')]

/-- The state of `invert` just before the outer loop: both epsilons set to
the user epsilon, `like` and `last_like` set to the initial misfit, the
iteration counter at zero. -/
def initSt {V F : Type} (cfg : Config V F) (model0 : Model V F) : St V F :=
  let like := cfg.likelihood (initCallArgs cfg) model0
  { model := model0
    model_v := copyToVector model0
    model_v_proposed := copyToVector model0
    epsilon := fun _ => cfg.epsilon0
    like := like
    last_like := like
    iterations := 0 }

/-- The whole of `invert`: run the loop from the initial state; on normal
completion the function returns `true` together with the final state (the
C++ function mutates the model in place and returns `bool`). -/
def invert {V F : Type} (cfg : Config V F) (model0 : Model V F)
    (innerFuel outerFuel : ℕ) : Option (Bool × St V F) :=
  (runLoop cfg innerFuel outerFuel (initSt cfg model0)).map (fun s => (true, s))

/-- The misfit `invert` evaluates for the proposal produced by the retry
loop at state `s` (the value `like` is compared against `last_like` with,
line 557), when the retry loop succeeds with the given fuel. -/
def stepEval {V F : Type} (cfg : Config V F) (fuel : ℕ) (s : St V F) :
    Option ℚ :=
  (retryStep cfg (mIdx s) fuel s).map
    (fun s1 => cfg.likelihood (evalCallArgs cfg) (copyToModel s1.model_v_proposed s.model))

/-- The misfit values of the accepted passes of a trace, in order. -/
def acceptedLikes {V F : Type} (tr : List (St V F × Branch × St V F)) : List ℚ :=
  tr.filterMap (fun p => if p.2.1 = Branch.accepted then some p.2.2.like else none)

/-- For a positive floor, repeatedly doubling the floor eventually exceeds
any value; this feeds the `Nat.find` in `halvings`. -/
def halvingsAux (e emin : ℚ) (h : 0 < emin) : ∃ k : ℕ, e < emin * 2 ^ k := by
  obtain ⟨k, hk⟩ := pow_unbounded_of_one_lt (e / emin) (by norm_num : (1 : ℚ) < 2)
  exact ⟨k, by rw [mul_comm]; exact (div_lt_iff₀ h).mp hk⟩

/-- The number of times a value can be halved before dropping strictly below
the floor: the least `k` with `e < emin * 2 ^ k` (0 if the floor is not
positive). -/
def halvings (e emin : ℚ) : ℕ :=
  if h : 0 < emin then Nat.find (halvingsAux e emin h) else 0

/-- Termination measure for the outer loop: iterations still to accept plus
the halvings each strategy's epsilon has left above the floor. -/
def epsMeasure {V F : Type} (cfg : Config V F) (s : St V F) : ℕ :=
  (cfg.maxiterations - s.iterations) +
    halvings (s.epsilon 0) cfg.epsilonMin + halvings (s.epsilon 1) cfg.epsilonMin

/-- A concrete instantiation used to exercise the loop: the misfit of a
model is its free parameter, every proposal is the improved free parameter
0, and validation always succeeds. -/
def exCfg : Config ℚ ℚ where
  likelihood := fun _ m => m.free
  computeStepOk := fun _ _ _ => true
  computeStepProposal := fun _ _ _ => 0
  validate := fun _ => true
  damping := fun _ => 0
  posterior := false
  threshold := 0
  order := 5
  highorder := 5
  boundaryorder := 5
  scale := 1
  epsilon0 := 1
  maxiterations := 2
  mode := 0
  epsilonMin := 1

/-- Variant of `exCfg` whose proposals always worsen the misfit, forcing the
backtrack branch. -/
def badCfg : Config ℚ ℚ :=
  { exCfg with computeStepProposal := fun _ _ _ => 2 }

/-- Variant of `badCfg` with the floor above the initial epsilon, forcing
the exit branch at the first worsening. -/
def exitCfg : Config ℚ ℚ :=
  { badCfg with epsilonMin := 10 }

/-- A concrete starting model. -/
def exModel : Model ℚ ℚ := { free := 1, fixed := 0 }

/-- A concrete loop state whose `model_v` field is stale: it differs from
the flattening of the live model. -/
def staleSt : St ℚ ℚ :=
  { model := { free := 1, fixed := 0 }
    model_v := 5
    model_v_proposed := 5
    epsilon := fun _ => 1
    like := 1
    last_like := 1
    iterations := 0 }

/-- A concrete loop state in sync with its model (misfit 1, epsilons 1). -/
def simpleSt : St ℚ ℚ :=
  { model := { free := 1, fixed := 0 }
    model_v := 1
    model_v_proposed := 1
    epsilon := fun _ => 1
    like := 1
    last_like := 1
    iterations := 0 }

/-- The state the retry loop produces from `simpleSt` under the worsening
constant proposal 2. -/
def worseSt1 : St ℚ ℚ :=
  { simpleSt with model_v := 1, model_v_proposed := 2 }

/-- The state the retry loop produces from `staleSt` under `exCfg`'s
constant proposal 0. -/
def staleSt1 : St ℚ ℚ :=
  { staleSt with model_v := 1, model_v_proposed := 0 }

/-- Restoring the snapshot of a model over any overwrite of its free
parameters recovers the original model. -/
theorem copy_restore {V F : Type} (m : Model V F) (v : V) :
    copyToModel (copyToVector m) (copyToModel v m) = m := rfl

/-- Frame and postcondition facts about the retry loop: it never touches the
live model, the misfit fields, the iteration counter, or the other
strategy's epsilon; on success the snapshot `model_v` holds the flattened
(unchanged) model, and the proposal passed validation and was produced by
the strategy at the final epsilon. -/
theorem retryStep_frame {V F : Type} (cfg : Config V F) (m : Fin 2) :
    ∀ (fuel : ℕ) (s s1 : St V F), retryStep cfg m fuel s = some s1 →
      s1.model = s.model ∧ s1.like = s.like ∧ s1.last_like = s.last_like ∧
      s1.iterations = s.iterations ∧ s1.model_v = copyToVector s.model ∧
      cfg.validate s1.model_v_proposed = true ∧
      s1.model_v_proposed = cfg.computeStepProposal m (s1.epsilon m) s.model ∧
      (∀ j, j ≠ m → s1.epsilon j = s.epsilon j) := by
  intro fuel
  induction fuel with
  | zero => intro s s1 h; simp [retryStep] at h
  | succ n ih =>
    intro s s1 h
    simp only [retryStep] at h
    split at h
    · cases h
      refine ⟨rfl, rfl, rfl, rfl, rfl, by assumption, rfl, fun j _ => rfl⟩
    · have := ih _ _ h
      obtain ⟨h1, h2, h3, h4, h5, h6, h7, h8⟩ := this
      refine ⟨h1, h2, h3, h4, h5, h6, ?_, ?_⟩
      · simpa using h7
      · intro j hj
        have := h8 j hj
        simpa [Function.update, hj] using this

/-- The retry loop can only halve epsilons: starting from a nonnegative
epsilon, the final epsilon is nonnegative and no greater. -/
theorem retryStep_epsilon {V F : Type} (cfg : Config V F) (m : Fin 2) :
    ∀ (fuel : ℕ) (s s1 : St V F), retryStep cfg m fuel s = some s1 →
      ∀ j, 0 ≤ s.epsilon j → 0 ≤ s1.epsilon j ∧ s1.epsilon j ≤ s.epsilon j := by
  intro fuel
  induction fuel with
  | zero => intro s s1 h; simp [retryStep] at h
  | succ n ih =>
    intro s s1 h j hj
    simp only [retryStep] at h
    split at h
    · cases h; exact ⟨hj, le_refl _⟩
    · have hle : (Function.update s.epsilon m (s.epsilon m * (1/2))) j ≤ s.epsilon j := by
        by_cases hjm : j = m
        · subst hjm; simp only [Function.update_same]; linarith
        · simp [Function.update, hjm]
      have hj' : 0 ≤ (Function.update s.epsilon m (s.epsilon m * (1/2))) j := by
        by_cases hjm : j = m
        · subst hjm; simp only [Function.update_same]; linarith
        · simpa [Function.update, hjm] using hj
      have := ih _ _ h j hj'
      exact ⟨this.1, le_trans this.2 hle⟩

/-- Exhaustive description of the three outcomes of one outer pass. -/
theorem outerPass_spec {V F : Type} (cfg : Config V F) (fuel : ℕ) (s : St V F)
    (b : Branch) (s' : St V F) (h : outerPass cfg fuel s = some (b, s')) :
    ∃ s1, retryStep cfg (mIdx s) fuel s = some s1 ∧
      ((b = Branch.accepted ∧
          ¬ s1.like < cfg.likelihood (evalCallArgs cfg) (copyToModel s1.model_v_proposed s1.model) ∧
          s' = { s1 with
                   model := copyToModel s1.model_v_proposed s1.model
                   like := cfg.likelihood (evalCallArgs cfg) (copyToModel s1.model_v_proposed s1.model)
                   last_like := s1.like
                   iterations := s1.iterations + 1 }) ∨
       (b = Branch.exited ∧
          s1.like < cfg.likelihood (evalCallArgs cfg) (copyToModel s1.model_v_proposed s1.model) ∧
          s1.epsilon (mIdx s) < cfg.epsilonMin ∧
          s' = { s1 with
                   model := copyToModel s1.model_v_proposed s1.model
                   like := cfg.likelihood (evalCallArgs cfg) (copyToModel s1.model_v_proposed s1.model)
                   last_like := s1.like }) ∨
       (b = Branch.backtracked ∧
          s1.like < cfg.likelihood (evalCallArgs cfg) (copyToModel s1.model_v_proposed s1.model) ∧
          ¬ s1.epsilon (mIdx s) < cfg.epsilonMin ∧
          s' = { s1 with
                   epsilon := Function.update s1.epsilon (mIdx s) (s1.epsilon (mIdx s) * (1/2))
                   model := copyToModel s1.model_v (copyToModel s1.model_v_proposed s1.model)
                   like := cfg.likelihood (backtrackCallArgs cfg)
                             (copyToModel s1.model_v (copyToModel s1.model_v_proposed s1.model))
                   last_like := s1.like })) := by
  unfold outerPass at h
  cases hr : retryStep cfg (mIdx s) fuel s with
  | none => rw [hr] at h; simp at h
  | some s1 =>
    rw [hr] at h
    dsimp only at h
    refine ⟨s1, rfl, ?_⟩
    split_ifs at h with h1 h2
    · cases h; exact Or.inr (Or.inl ⟨rfl, h1, h2, rfl⟩)
    · cases h; exact Or.inr (Or.inr ⟨rfl, h1, h2, rfl⟩)
    · cases h; exact Or.inl ⟨rfl, h1, rfl⟩

theorem fin_two_cases (j : Fin 2) : j = 0 ∨ j = 1 := by
  rcases j with ⟨v, hv⟩
  interval_cases v
  · exact Or.inl rfl
  · exact Or.inr rfl

theorem halvings_of_lt {e emin : ℚ} (h : 0 < emin) (he : e < emin) :
    halvings e emin = 0 := by
  rw [halvings, dif_pos h, Nat.find_eq_iff]
  exact ⟨by simpa using he, by omega⟩

theorem halvings_pos {e emin : ℚ} (h : 0 < emin) (he : ¬ e < emin) :
    1 ≤ halvings e emin := by
  rw [halvings, dif_pos h]
  by_contra hc
  have h0 : Nat.find (halvingsAux e emin h) = 0 := by omega
  have := Nat.find_spec (halvingsAux e emin h)
  rw [h0] at this
  simp at this
  exact he this

theorem halvings_half {e emin : ℚ} (h : 0 < emin) :
    halvings (e * (1/2)) emin = halvings e emin - 1 := by
  by_cases he : e < emin
  · rw [halvings_of_lt h he, halvings_of_lt h (by linarith)]
  · have h1 : 1 ≤ halvings e emin := halvings_pos h he
    have hKspec : e < emin * 2 ^ halvings e emin := by
      rw [halvings, dif_pos h]
      exact Nat.find_spec (halvingsAux e emin h)
    have hKmin : ∀ n < halvings e emin, ¬ e < emin * 2 ^ n := by
      intro n hn
      rw [halvings, dif_pos h] at hn
      exact Nat.find_min (halvingsAux e emin h) hn
    have hequiv : ∀ k : ℕ, (e * (1/2) < emin * 2 ^ k ↔ e < emin * 2 ^ (k + 1)) := by
      intro k
      have hp : emin * 2 ^ (k + 1) = (emin * 2 ^ k) * 2 := by ring
      constructor <;> intro hh <;> linarith
    rw [halvings, dif_pos h, Nat.find_eq_iff]
    constructor
    · rw [hequiv]
      have : halvings e emin - 1 + 1 = halvings e emin := by omega
      rw [this]
      exact hKspec
    · intro n hn
      rw [hequiv]
      exact hKmin (n + 1) (by omega)

theorem halvings_half_le (e emin : ℚ) :
    halvings (e * (1/2)) emin ≤ halvings e emin := by
  by_cases h : 0 < emin
  · rw [halvings_half h]; omega
  · rw [halvings, dif_neg h, halvings, dif_neg h]

/-- The retry loop can only shrink the halving budget of the active
strategy's epsilon. -/
theorem retryStep_halvings {V F : Type} (cfg : Config V F) (m : Fin 2) :
    ∀ (fuel : ℕ) (s s1 : St V F), retryStep cfg m fuel s = some s1 →
      halvings (s1.epsilon m) cfg.epsilonMin ≤ halvings (s.epsilon m) cfg.epsilonMin := by
  intro fuel
  induction fuel with
  | zero => intro s s1 h; simp [retryStep] at h
  | succ n ih =>
    intro s s1 h
    simp only [retryStep] at h
    split at h
    · cases h; exact le_refl _
    · have := ih _ _ h
      calc halvings (s1.epsilon m) cfg.epsilonMin
          ≤ halvings ((Function.update s.epsilon m (s.epsilon m * (1/2))) m) cfg.epsilonMin := this
        _ = halvings (s.epsilon m * (1/2)) cfg.epsilonMin := by rw [Function.update_same]
        _ ≤ halvings (s.epsilon m) cfg.epsilonMin := halvings_half_le _ _

/-- When the retry loop succeeds, the outer pass produces a result. -/
theorem outerPass_isSome {V F : Type} (cfg : Config V F) (fuel : ℕ) (s : St V F)
    (h : (retryStep cfg (mIdx s) fuel s).isSome) :
    (outerPass cfg fuel s).isSome := by
  obtain ⟨s1, h1⟩ := Option.isSome_iff_exists.mp h
  unfold outerPass
  rw [h1]
  dsimp only
  split_ifs <;> simp

/-- The iteration counter after one pass: incremented exactly on
acceptance, otherwise unchanged. -/
theorem outerPass_iterations {V F : Type} (cfg : Config V F) (fuel : ℕ)
    (s : St V F) (b : Branch) (s' : St V F) (h : outerPass cfg fuel s = some (b, s')) :
    (b = Branch.accepted → s'.iterations = s.iterations + 1) ∧
    (b ≠ Branch.accepted → s'.iterations = s.iterations) := by
  obtain ⟨s1, hr, hc⟩ := outerPass_spec cfg fuel s b s' h
  have hfr := (retryStep_frame cfg (mIdx s) fuel s s1 hr).2.2.2.1
  rcases hc with ⟨hb, _, rfl⟩ | ⟨hb, _, _, rfl⟩ | ⟨hb, _, _, rfl⟩ <;>
    subst hb <;> constructor <;> intro hb' <;> simp_all

/-- One pass can only shrink each epsilon (and keeps it nonnegative). -/
theorem outerPass_epsilon {V F : Type} (cfg : Config V F) (fuel : ℕ)
    (s : St V F) (b : Branch) (s' : St V F) (h : outerPass cfg fuel s = some (b, s'))
    (j : Fin 2) (hj : 0 ≤ s.epsilon j) :
    0 ≤ s'.epsilon j ∧ s'.epsilon j ≤ s.epsilon j := by
  obtain ⟨s1, hr, hc⟩ := outerPass_spec cfg fuel s b s' h
  have he := retryStep_epsilon cfg (mIdx s) fuel s s1 hr j hj
  rcases hc with ⟨_, _, rfl⟩ | ⟨_, _, _, rfl⟩ | ⟨_, _, _, rfl⟩
  · exact he
  · exact he
  · by_cases hjm : j = mIdx s
    · subst hjm
      simp only [Function.update_same]
      constructor
      · linarith [he.1]
      · linarith [he.1, he.2]
    · simp only [Function.update, dif_neg hjm]
      exact he

/-- The misfit bookkeeping across one pass, under the invariant that `like`
holds the likelihood of the live model: the invariant is preserved, an
accepted pass does not increase the misfit, and a backtracked pass restores
both the model and the misfit. -/
theorem outerPass_like {V F : Type} (cfg : Config V F) (fuel : ℕ)
    (s : St V F) (b : Branch) (s' : St V F) (h : outerPass cfg fuel s = some (b, s'))
    (hInv : s.like = cfg.likelihood (evalCallArgs cfg) s.model) :
    s'.like = cfg.likelihood (evalCallArgs cfg) s'.model ∧
    (b = Branch.accepted → s'.like ≤ s.like) ∧
    (b = Branch.backtracked → s'.like = s.like ∧ s'.model = s.model) := by
  obtain ⟨s1, hr, hc⟩ := outerPass_spec cfg fuel s b s' h
  obtain ⟨hm, hl, -, -, hv, -, -, -⟩ := retryStep_frame cfg (mIdx s) fuel s s1 hr
  have hba : backtrackCallArgs cfg = evalCallArgs cfg := rfl
  rcases hc with ⟨hb, hlt, rfl⟩ | ⟨hb, hlt, heps, rfl⟩ | ⟨hb, hlt, heps, rfl⟩
  · subst hb
    refine ⟨rfl, fun _ => ?_, by simp⟩
    rw [← hl]
    exact le_of_not_lt hlt
  · subst hb
    exact ⟨rfl, by simp, by simp⟩
  · subst hb
    have hrestore : copyToModel s1.model_v (copyToModel s1.model_v_proposed s1.model) = s.model := by
      rw [hv, hm, copy_restore]
    refine ⟨?_, by simp, fun _ => ⟨?_, ?_⟩⟩
    · show cfg.likelihood (backtrackCallArgs cfg)
          (copyToModel s1.model_v (copyToModel s1.model_v_proposed s1.model)) =
        cfg.likelihood (evalCallArgs cfg)
          (copyToModel s1.model_v (copyToModel s1.model_v_proposed s1.model))
      rw [hba]
    · show cfg.likelihood (backtrackCallArgs cfg)
          (copyToModel s1.model_v (copyToModel s1.model_v_proposed s1.model)) = s.like
      rw [hba, hrestore, ← hInv]
    · exact hrestore

/-- The final iteration count of the loop never exceeds `maxiterations`
(except that the do-while shape always runs one pass). -/
theorem runLoop_iterations {V F : Type} (cfg : Config V F) (innerFuel : ℕ) :
    ∀ (N : ℕ) (s s' : St V F), runLoop cfg innerFuel N s = some s' →
      s'.iterations ≤ max cfg.maxiterations (s.iterations + 1) := by
  intro N
  induction N with
  | zero => intro s s' h; simp [runLoop] at h
  | succ n ih =>
    intro s s' h
    unfold runLoop at h
    cases houter : outerPass cfg innerFuel s with
    | none => rw [houter] at h; simp at h
    | some bs =>
      obtain ⟨b, s2⟩ := bs
      rw [houter] at h
      have hit := outerPass_iterations cfg innerFuel s b s2 houter
      cases b with
      | exited =>
        have h2 := hit.2 (by simp)
        dsimp only at h
        cases h
        omega
      | accepted =>
        have h2 := hit.1 rfl
        dsimp only at h
        split_ifs at h with hlt
        · have := ih s2 s' h
          omega
        · cases h; omega
      | backtracked =>
        have h2 := hit.2 (by simp)
        dsimp only at h
        split_ifs at h with hlt
        · have := ih s2 s' h
          omega
        · cases h; omega

/-- The loop is total when given enough outer fuel: the measure
`epsMeasure` strictly decreases at every continuing pass, provided the
floor is positive and the retry loop always succeeds within its fuel. -/
theorem runLoop_total {V F : Type} (cfg : Config V F) (innerFuel : ℕ)
    (hmin : 0 < cfg.epsilonMin)
    (hInner : ∀ s : St V F, (retryStep cfg (mIdx s) innerFuel s).isSome) :
    ∀ (N : ℕ) (s : St V F), epsMeasure cfg s < N →
      (runLoop cfg innerFuel N s).isSome := by
  intro N
  induction N with
  | zero => intro s hs; omega
  | succ n ih =>
    intro s hs
    obtain ⟨⟨b, s2⟩, houter⟩ :=
      Option.isSome_iff_exists.mp (outerPass_isSome cfg innerFuel s (hInner s))
    obtain ⟨s1, hr, hc⟩ := outerPass_spec cfg innerFuel s b s2 houter
    have hfr := retryStep_frame cfg (mIdx s) innerFuel s s1 hr
    have hhalv_m : halvings (s1.epsilon (mIdx s)) cfg.epsilonMin ≤
        halvings (s.epsilon (mIdx s)) cfg.epsilonMin :=
      retryStep_halvings cfg (mIdx s) innerFuel s s1 hr
    have hhalv_all : ∀ j : Fin 2, halvings (s1.epsilon j) cfg.epsilonMin ≤
        halvings (s.epsilon j) cfg.epsilonMin := by
      intro j
      by_cases hj : j = mIdx s
      · subst hj; exact hhalv_m
      · rw [hfr.2.2.2.2.2.2.2 j hj]
    unfold runLoop
    rw [houter]
    cases b with
    | exited => simp
    | accepted =>
      dsimp only
      split_ifs with hlt
      · apply ih
        rcases hc with ⟨-, -, rfl⟩ | ⟨hb, -, -, -⟩ | ⟨hb, -, -, -⟩
        · have hiter : s1.iterations = s.iterations := hfr.2.2.2.1
          have h0 := hhalv_all 0
          have h1 := hhalv_all 1
          simp only [epsMeasure] at hs ⊢
          dsimp only at hlt ⊢
          omega
        · simp at hb
        · simp at hb
      · simp
    | backtracked =>
      dsimp only
      split_ifs with hlt
      · apply ih
        rcases hc with ⟨hb, -, -⟩ | ⟨hb, -, -, -⟩ | ⟨-, -, heps, rfl⟩
        · simp at hb
        · simp at hb
        · have hiter : s1.iterations = s.iterations := hfr.2.2.2.1
          have hdown := @halvings_half (s1.epsilon (mIdx s)) cfg.epsilonMin hmin
          have hone : 1 ≤ halvings (s1.epsilon (mIdx s)) cfg.epsilonMin :=
            halvings_pos hmin heps
          simp only [epsMeasure] at hs ⊢
          rcases fin_two_cases (mIdx s) with hm | hm <;> rw [hm] at hdown hone hhalv_m ⊢
          · rw [Function.update_same,
              Function.update_noteq (show (1 : Fin 2) ≠ 0 by decide)]
            have h1 := hhalv_all 1
            omega
          · rw [Function.update_same,
              Function.update_noteq (show (0 : Fin 2) ≠ 1 by decide)]
            have h0 := hhalv_all 0
            omega
      · simp

theorem acceptedLikes_cons_acc {V F : Type} (s s' : St V F)
    (t : List (St V F × Branch × St V F)) :
    acceptedLikes ((s, Branch.accepted, s') :: t) = s'.like :: acceptedLikes t := by
  simp [acceptedLikes, List.filterMap_cons]

theorem acceptedLikes_cons_ne {V F : Type} {b : Branch} (hb : b ≠ Branch.accepted)
    (s s' : St V F) (t : List (St V F × Branch × St V F)) :
    acceptedLikes ((s, b, s') :: t) = acceptedLikes t := by
  simp [acceptedLikes, List.filterMap_cons, hb]

/-- Every entry of a trace is a genuine outer pass from its recorded
pre-state. -/
theorem runTrace_mem {V F : Type} (cfg : Config V F) (innerFuel : ℕ) :
    ∀ (N : ℕ) (s : St V F) (tr : List (St V F × Branch × St V F)),
      runTrace cfg innerFuel N s = some tr →
      ∀ p ∈ tr, outerPass cfg innerFuel p.1 = some (p.2.1, p.2.2) := by
  intro N
  induction N with
  | zero => intro s tr h; simp [runTrace] at h
  | succ n ih =>
    intro s tr h p hp
    unfold runTrace at h
    cases houter : outerPass cfg innerFuel s with
    | none => rw [houter] at h; simp at h
    | some bs =>
      obtain ⟨b, s2⟩ := bs
      rw [houter] at h
      cases b with
      | exited =>
        dsimp only at h
        cases h
        rcases List.mem_singleton.mp hp with rfl
        exact houter
      | accepted =>
        dsimp only at h
        split_ifs at h with hlt
        · cases htr2 : runTrace cfg innerFuel n s2 with
          | none => rw [htr2] at h; simp at h
          | some t2 =>
            rw [htr2] at h
            simp only [Option.map_some'] at h
            cases h
            rcases List.mem_cons.mp hp with rfl | hmem
            · exact houter
            · exact ih s2 t2 htr2 p hmem
        · cases h
          rcases List.mem_singleton.mp hp with rfl
          exact houter
      | backtracked =>
        dsimp only at h
        split_ifs at h with hlt
        · cases htr2 : runTrace cfg innerFuel n s2 with
          | none => rw [htr2] at h; simp at h
          | some t2 =>
            rw [htr2] at h
            simp only [Option.map_some'] at h
            cases h
            rcases List.mem_cons.mp hp with rfl | hmem
            · exact houter
            · exact ih s2 t2 htr2 p hmem
        · cases h
          rcases List.mem_singleton.mp hp with rfl
          exact houter

/-- Along any trace started with nonnegative epsilons, every pass leaves
each epsilon nonnegative and no larger than before the pass. -/
theorem runTrace_epsilon {V F : Type} (cfg : Config V F) (innerFuel : ℕ) :
    ∀ (N : ℕ) (s : St V F) (tr : List (St V F × Branch × St V F)),
      runTrace cfg innerFuel N s = some tr →
      (∀ j, 0 ≤ s.epsilon j) →
      ∀ p ∈ tr, ∀ j, 0 ≤ p.1.epsilon j ∧ p.2.2.epsilon j ≤ p.1.epsilon j := by
  intro N
  induction N with
  | zero => intro s tr h; simp [runTrace] at h
  | succ n ih =>
    intro s tr h hpos p hp
    unfold runTrace at h
    cases houter : outerPass cfg innerFuel s with
    | none => rw [houter] at h; simp at h
    | some bs =>
      obtain ⟨b, s2⟩ := bs
      rw [houter] at h
      have hstep : ∀ j, 0 ≤ s2.epsilon j ∧ s2.epsilon j ≤ s.epsilon j := fun j =>
        outerPass_epsilon cfg innerFuel s b s2 houter j (hpos j)
      have hpos2 : ∀ j, 0 ≤ s2.epsilon j := fun j => (hstep j).1
      cases b with
      | exited =>
        dsimp only at h
        cases h
        rcases List.mem_singleton.mp hp with rfl
        intro j
        exact ⟨hpos j, (hstep j).2⟩
      | accepted =>
        dsimp only at h
        split_ifs at h with hlt
        · cases htr2 : runTrace cfg innerFuel n s2 with
          | none => rw [htr2] at h; simp at h
          | some t2 =>
            rw [htr2] at h
            simp only [Option.map_some'] at h
            cases h
            rcases List.mem_cons.mp hp with rfl | hmem
            · intro j; exact ⟨hpos j, (hstep j).2⟩
            · exact ih s2 t2 htr2 hpos2 p hmem
        · cases h
          rcases List.mem_singleton.mp hp with rfl
          intro j
          exact ⟨hpos j, (hstep j).2⟩
      | backtracked =>
        dsimp only at h
        split_ifs at h with hlt
        · cases htr2 : runTrace cfg innerFuel n s2 with
          | none => rw [htr2] at h; simp at h
          | some t2 =>
            rw [htr2] at h
            simp only [Option.map_some'] at h
            cases h
            rcases List.mem_cons.mp hp with rfl | hmem
            · intro j; exact ⟨hpos j, (hstep j).2⟩
            · exact ih s2 t2 htr2 hpos2 p hmem
        · cases h
          rcases List.mem_singleton.mp hp with rfl
          intro j
          exact ⟨hpos j, (hstep j).2⟩

/-- Under the invariant that `like` is the likelihood of the live model,
the initial misfit followed by the misfits of the accepted passes forms a
non-increasing sequence. -/
theorem runTrace_chain {V F : Type} (cfg : Config V F) (innerFuel : ℕ) :
    ∀ (N : ℕ) (s : St V F) (tr : List (St V F × Branch × St V F)),
      runTrace cfg innerFuel N s = some tr →
      s.like = cfg.likelihood (evalCallArgs cfg) s.model →
      List.Chain' (fun a b => b ≤ a) (s.like :: acceptedLikes tr) := by
  intro N
  induction N with
  | zero => intro s tr h; simp [runTrace] at h
  | succ n ih =>
    intro s tr h hInv
    unfold runTrace at h
    cases houter : outerPass cfg innerFuel s with
    | none => rw [houter] at h; simp at h
    | some bs =>
      obtain ⟨b, s2⟩ := bs
      rw [houter] at h
      have hlike := outerPass_like cfg innerFuel s b s2 houter hInv
      cases b with
      | exited =>
        dsimp only at h
        cases h
        rw [acceptedLikes_cons_ne (by simp)]
        simp [acceptedLikes]
      | accepted =>
        have hle : s2.like ≤ s.like := hlike.2.1 rfl
        dsimp only at h
        split_ifs at h with hlt
        · cases htr2 : runTrace cfg innerFuel n s2 with
          | none => rw [htr2] at h; simp at h
          | some t2 =>
            rw [htr2] at h
            simp only [Option.map_some'] at h
            cases h
            rw [acceptedLikes_cons_acc]
            exact List.chain'_cons.mpr ⟨hle, ih s2 t2 htr2 hlike.1⟩
        · cases h
          rw [acceptedLikes_cons_acc]
          simp only [acceptedLikes, List.filterMap_nil]
          exact List.chain'_pair.mpr hle
      | backtracked =>
        have heq : s2.like = s.like := (hlike.2.2 rfl).1
        dsimp only at h
        split_ifs at h with hlt
        · cases htr2 : runTrace cfg innerFuel n s2 with
          | none => rw [htr2] at h; simp at h
          | some t2 =>
            rw [htr2] at h
            simp only [Option.map_some'] at h
            cases h
            rw [acceptedLikes_cons_ne (by simp)]
            have := ih s2 t2 htr2 hlike.1
            rwa [heq] at this
        · cases h
          rw [acceptedLikes_cons_ne (by simp)]
          simp [acceptedLikes]

/-- The retry loop is insensitive to every part of the configuration except
the proposal function and the validator. -/
theorem retryStep_congr {V F : Type} (cfg' cfg : Config V F)
    (h2 : cfg'.computeStepProposal = cfg.computeStepProposal)
    (h3 : cfg'.validate = cfg.validate) (m : Fin 2) :
    ∀ (fuel : ℕ) (s : St V F), retryStep cfg' m fuel s = retryStep cfg m fuel s := by
  intro fuel
  induction fuel with
  | zero => intro s; rfl
  | succ n ih =>
    intro s
    simp only [retryStep, h2, h3]
    split
    · rfl
    · exact ih _

/-- One outer pass is insensitive to every part of the configuration except
the likelihood, the proposal function, the validator, the floor and the
fixed likelihood arguments. -/
theorem outerPass_congr {V F : Type} (cfg' cfg : Config V F)
    (h1 : cfg'.likelihood = cfg.likelihood)
    (h2 : cfg'.computeStepProposal = cfg.computeStepProposal)
    (h3 : cfg'.validate = cfg.validate)
    (h4 : cfg'.epsilonMin = cfg.epsilonMin)
    (hE : evalCallArgs cfg' = evalCallArgs cfg)
    (fuel : ℕ) (s : St V F) :
    outerPass cfg' fuel s = outerPass cfg fuel s := by
  have hB : backtrackCallArgs cfg' = backtrackCallArgs cfg := hE
  unfold outerPass
  rw [retryStep_congr cfg' cfg h2 h3, h1, h4, hE, hB]

/-- The outer loop driver is insensitive to every part of the configuration
except the likelihood, the proposal function, the validator, the floor, the
fixed likelihood arguments and the iteration cap. -/
theorem runLoop_congr {V F : Type} (cfg' cfg : Config V F)
    (h1 : cfg'.likelihood = cfg.likelihood)
    (h2 : cfg'.computeStepProposal = cfg.computeStepProposal)
    (h3 : cfg'.validate = cfg.validate)
    (h4 : cfg'.epsilonMin = cfg.epsilonMin)
    (h5 : cfg'.maxiterations = cfg.maxiterations)
    (hE : evalCallArgs cfg' = evalCallArgs cfg) (innerFuel : ℕ) :
    ∀ (N : ℕ) (s : St V F), runLoop cfg' innerFuel N s = runLoop cfg innerFuel N s := by
  intro N
  induction N with
  | zero => intro s; rfl
  | succ n ih =>
    intro s
    unfold runLoop
    rw [outerPass_congr cfg' cfg h1 h2 h3 h4 hE, h5]
    cases outerPass cfg innerFuel s with
    | none => rfl
    | some bs =>
      obtain ⟨b, s2⟩ := bs
      cases b <;> dsimp only <;> split_ifs <;> first | rfl | exact ih s2

/-- The whole of `invert` is insensitive to the remaining configuration
fields (in particular `computeStepOk`'s value and `mode`). -/
theorem invert_congr {V F : Type} (cfg' cfg : Config V F)
    (h1 : cfg'.likelihood = cfg.likelihood)
    (h2 : cfg'.computeStepProposal = cfg.computeStepProposal)
    (h3 : cfg'.validate = cfg.validate)
    (h4 : cfg'.epsilonMin = cfg.epsilonMin)
    (h5 : cfg'.maxiterations = cfg.maxiterations)
    (h6 : cfg'.epsilon0 = cfg.epsilon0)
    (hE : evalCallArgs cfg' = evalCallArgs cfg)
    (model0 : Model V F) (innerFuel outerFuel : ℕ) :
    invert cfg' model0 innerFuel outerFuel = invert cfg model0 innerFuel outerFuel := by
  have hI : initCallArgs cfg' = initCallArgs cfg := hE
  have hinit : initSt cfg' model0 = initSt cfg model0 := by
    unfold initSt
    rw [h1, hI, h6]
  unfold invert
  rw [hinit, runLoop_congr cfg' cfg h1 h2 h3 h4 h5 hE]

/-- A pass accepts exactly when the misfit evaluated for the retried
proposal does not exceed the `like` field at entry (the last accepted
misfit). -/
theorem outerPass_accept_iff {V F : Type} (cfg : Config V F) (fuel : ℕ)
    (s : St V F) (b : Branch) (s' : St V F) (e : ℚ)
    (h : outerPass cfg fuel s = some (b, s'))
    (he : stepEval cfg fuel s = some e) :
    (b = Branch.accepted ↔ e ≤ s.like) := by
  obtain ⟨s1, hr, hc⟩ := outerPass_spec cfg fuel s b s' h
  obtain ⟨hm, hl, -, -, -, -, -, -⟩ := retryStep_frame cfg (mIdx s) fuel s s1 hr
  unfold stepEval at he
  rw [hr] at he
  simp only [Option.map_some'] at he
  cases he
  rw [← hm, ← hl]
  rcases hc with ⟨hb, hnlt, -⟩ | ⟨hb, hlt, -, -⟩ | ⟨hb, hlt, -, -⟩
  · subst hb
    exact iff_of_true rfl (le_of_not_lt hnlt)
  · subst hb
    exact iff_of_false (by simp) (not_le.mpr hlt)
  · subst hb
    exact iff_of_false (by simp) (not_le.mpr hlt)

/-- C1: in the invert loop, whenever the newly evaluated misfit is strictly
greater than the last accepted misfit and the active strategy's
`epsilon[m]` is not below the floor `EPSILON_MIN`, the driver halves
`epsilon[m]`, restores the model from the pre-step snapshot `model_v` (so
the live model equals the model at the start of the pass again), recomputes
the misfit at that restored state with the likelihood function, and does
not increment the iteration counter for that pass. -/
theorem invert_backtrack_step {V F : Type} (cfg : Config V F) (fuel : ℕ)
    (s s1 : St V F)
    (h1 : retryStep cfg (mIdx s) fuel s = some s1)
    (h2 : s.like < cfg.likelihood (evalCallArgs cfg) (copyToModel s1.model_v_proposed s1.model))
    (h3 : ¬ s1.epsilon (mIdx s) < cfg.epsilonMin) :
    ∃ s', outerPass cfg fuel s = some (Branch.backtracked, s') ∧
      s'.epsilon (mIdx s) = s1.epsilon (mIdx s) * (1/2) ∧
      s'.model = copyToModel s1.model_v (copyToModel s1.model_v_proposed s1.model) ∧
      s'.model = s.model ∧
      s'.like = cfg.likelihood (backtrackCallArgs cfg) s.model ∧
      s'.iterations = s.iterations := by
  obtain ⟨hm, hl, -, hit, hv, -, -, -⟩ := retryStep_frame cfg (mIdx s) fuel s s1 h1
  have h2' : s1.like <
      cfg.likelihood (evalCallArgs cfg) (copyToModel s1.model_v_proposed s1.model) := by
    rw [hl]; exact h2
  refine ⟨{ s1 with
      epsilon := Function.update s1.epsilon (mIdx s) (s1.epsilon (mIdx s) * (1/2))
      model := copyToModel s1.model_v (copyToModel s1.model_v_proposed s1.model)
      like := cfg.likelihood (backtrackCallArgs cfg)
                (copyToModel s1.model_v (copyToModel s1.model_v_proposed s1.model))
      last_like := s1.like }, ?_, ?_, ?_, ?_, ?_, ?_⟩
  · unfold outerPass
    rw [h1]
    dsimp only
    rw [if_pos h2', if_neg h3]
  · exact Function.update_same _ _ _
  · rfl
  · show copyToModel s1.model_v (copyToModel s1.model_v_proposed s1.model) = s.model
    rw [hv, hm]
    exact copy_restore s.model s1.model_v_proposed
  · show cfg.likelihood (backtrackCallArgs cfg)
        (copyToModel s1.model_v (copyToModel s1.model_v_proposed s1.model)) =
      cfg.likelihood (backtrackCallArgs cfg) s.model
    rw [hv, hm, copy_restore]
  · exact hit

/-- Concrete instance of the backtracking claim: under the worsening
proposal configuration the first pass backtracks, halving the epsilon and
restoring the model. -/
theorem invert_backtrack_step_witness :
    (retryStep badCfg (mIdx simpleSt) 1 simpleSt = some worseSt1 ∧
     simpleSt.like <
       badCfg.likelihood (evalCallArgs badCfg)
         (copyToModel worseSt1.model_v_proposed worseSt1.model) ∧
     ¬ worseSt1.epsilon (mIdx simpleSt) < badCfg.epsilonMin) ∧
    (∃ s', outerPass badCfg 1 simpleSt = some (Branch.backtracked, s') ∧
      s'.epsilon (mIdx simpleSt) = worseSt1.epsilon (mIdx simpleSt) * (1/2) ∧
      s'.model = copyToModel worseSt1.model_v
        (copyToModel worseSt1.model_v_proposed worseSt1.model) ∧
      s'.model = simpleSt.model ∧
      s'.like = badCfg.likelihood (backtrackCallArgs badCfg) simpleSt.model ∧
      s'.iterations = simpleSt.iterations) := by
  refine ⟨⟨rfl, by decide, by decide⟩, ?_⟩
  exact invert_backtrack_step badCfg 1 simpleSt worseSt1 rfl (by decide) (by decide)

/-- C6: when the loop exits through the epsilon-floor branch, the live
model still contains the rejected proposed parameters that produced the
worse misfit — the break happens without restoring `model_v` or any
previously accepted state. -/
theorem invert_exit_keeps_rejected_model {V F : Type} (cfg : Config V F) (fuel : ℕ)
    (s s1 : St V F)
    (h1 : retryStep cfg (mIdx s) fuel s = some s1)
    (h2 : s.like < cfg.likelihood (evalCallArgs cfg) (copyToModel s1.model_v_proposed s1.model))
    (h3 : s1.epsilon (mIdx s) < cfg.epsilonMin) :
    ∃ s', outerPass cfg fuel s = some (Branch.exited, s') ∧
      s'.model = copyToModel s1.model_v_proposed s.model ∧
      copyToVector s'.model = s1.model_v_proposed ∧
      s'.last_like < s'.like ∧
      s'.like = cfg.likelihood (evalCallArgs cfg) s'.model ∧
      s'.iterations = s.iterations := by
  obtain ⟨hm, hl, -, hit, -, -, -, -⟩ := retryStep_frame cfg (mIdx s) fuel s s1 h1
  have h2' : s1.like <
      cfg.likelihood (evalCallArgs cfg) (copyToModel s1.model_v_proposed s1.model) := by
    rw [hl]; exact h2
  refine ⟨{ s1 with
      model := copyToModel s1.model_v_proposed s1.model
      like := cfg.likelihood (evalCallArgs cfg) (copyToModel s1.model_v_proposed s1.model)
      last_like := s1.like }, ?_, ?_, ?_, ?_, ?_, ?_⟩
  · unfold outerPass
    rw [h1]
    dsimp only
    rw [if_pos h2', if_pos h3]
  · show copyToModel s1.model_v_proposed s1.model = copyToModel s1.model_v_proposed s.model
    rw [hm]
  · rfl
  · exact h2'
  · rfl
  · exact hit

/-- Concrete instance of the floor-exit claim: with the floor above the
initial epsilon, a worsening pass exits with the rejected proposal left in
the model. -/
theorem invert_exit_keeps_rejected_model_witness :
    (retryStep exitCfg (mIdx simpleSt) 1 simpleSt = some worseSt1 ∧
     simpleSt.like <
       exitCfg.likelihood (evalCallArgs exitCfg)
         (copyToModel worseSt1.model_v_proposed worseSt1.model) ∧
     worseSt1.epsilon (mIdx simpleSt) < exitCfg.epsilonMin) ∧
    (∃ s', outerPass exitCfg 1 simpleSt = some (Branch.exited, s') ∧
      s'.model = copyToModel worseSt1.model_v_proposed simpleSt.model ∧
      copyToVector s'.model = worseSt1.model_v_proposed ∧
      s'.last_like < s'.like ∧
      s'.like = exitCfg.likelihood (evalCallArgs exitCfg) s'.model ∧
      s'.iterations = simpleSt.iterations) := by
  refine ⟨⟨rfl, by decide, by decide⟩, ?_⟩
  exact invert_exit_keeps_rejected_model exitCfg 1 simpleSt worseSt1 rfl (by decide) (by decide)

/-- C2: with the likelihood a pure function of data and model plus the
fixed configuration (as it is in this embedding), the initial misfit
followed by the misfits of the accepted passes of any run is a
non-increasing sequence, and a pass is accepted exactly when the misfit
evaluated for its retried proposal does not exceed the last accepted
misfit — so every backtrack or exit happens precisely because the
evaluated misfit was greater. -/
theorem invert_accepted_monotone {V F : Type} (cfg : Config V F)
    (innerFuel N : ℕ) (model0 : Model V F)
    (tr : List (St V F × Branch × St V F))
    (h : runTrace cfg innerFuel N (initSt cfg model0) = some tr) :
    List.Chain' (fun a b => b ≤ a) ((initSt cfg model0).like :: acceptedLikes tr) ∧
    ∀ p ∈ tr, ∀ e : ℚ, stepEval cfg innerFuel p.1 = some e →
      (p.2.1 = Branch.accepted ↔ e ≤ p.1.like) := by
  constructor
  · exact runTrace_chain cfg innerFuel N _ tr h rfl
  · intro p hp e he
    exact outerPass_accept_iff cfg innerFuel p.1 p.2.1 p.2.2 e
      (runTrace_mem cfg innerFuel N _ tr h p hp) he

/-- Concrete instance of the monotonicity claim on a two-pass accepting
run. -/
theorem invert_accepted_monotone_witness :
    (runTrace exCfg 1 3 (initSt exCfg exModel) =
      some ((runTrace exCfg 1 3 (initSt exCfg exModel)).getD [])) ∧
    (List.Chain' (fun a b => b ≤ a)
        ((initSt exCfg exModel).like ::
          acceptedLikes ((runTrace exCfg 1 3 (initSt exCfg exModel)).getD [])) ∧
      ∀ p ∈ (runTrace exCfg 1 3 (initSt exCfg exModel)).getD [], ∀ e : ℚ,
        stepEval exCfg 1 p.1 = some e → (p.2.1 = Branch.accepted ↔ e ≤ p.1.like)) :=
  ⟨rfl, invert_accepted_monotone exCfg 1 3 exModel _ rfl⟩

/-- C3: given a positive floor `EPSILON_MIN`, at least one allowed
iteration (the CLI enforces `maxiterations ≥ 1`), and well-posed inputs —
the prior-validation retry loop always produces a valid proposal within
its fuel — the outer loop never runs forever: outer fuel one more than the
`epsMeasure` bound suffices for it to stop (by the counter reaching
`maxiterations` or by the floor-triggered exit), and the final state has
accepted at most `maxiterations` steps. -/
theorem invert_terminates {V F : Type} (cfg : Config V F) (innerFuel : ℕ)
    (model0 : Model V F) (hmin : 0 < cfg.epsilonMin)
    (hmax : 1 ≤ cfg.maxiterations)
    (hInner : ∀ s : St V F, (retryStep cfg (mIdx s) innerFuel s).isSome) :
    ∃ s', runLoop cfg innerFuel (epsMeasure cfg (initSt cfg model0) + 1)
        (initSt cfg model0) = some s' ∧
      s'.iterations ≤ cfg.maxiterations := by
  have htot := runLoop_total cfg innerFuel hmin hInner
    (epsMeasure cfg (initSt cfg model0) + 1) (initSt cfg model0) (by omega)
  obtain ⟨s', hs'⟩ := Option.isSome_iff_exists.mp htot
  refine ⟨s', hs', ?_⟩
  have := runLoop_iterations cfg innerFuel _ _ _ hs'
  have hzero : (initSt cfg model0).iterations = 0 := rfl
  omega

/-- Concrete instance of the termination claim. -/
theorem invert_terminates_witness :
    (0 < exCfg.epsilonMin ∧ 1 ≤ exCfg.maxiterations ∧
      ∀ s : St ℚ ℚ, (retryStep exCfg (mIdx s) 1 s).isSome) ∧
    (∃ s', runLoop exCfg 1 (epsMeasure exCfg (initSt exCfg exModel) + 1)
        (initSt exCfg exModel) = some s' ∧
      s'.iterations ≤ exCfg.maxiterations) := by
  have hInner : ∀ s : St ℚ ℚ, (retryStep exCfg (mIdx s) 1 s).isSome := by
    intro s
    rfl
  exact ⟨⟨by decide, by decide, hInner⟩,
    invert_terminates exCfg 1 exModel (by decide) (by decide) hInner⟩

/-- C4: starting from the nonnegative user epsilon, each strategy's
epsilon never increases across any run: every pass (including its
prior-validation rejections and any backtrack) leaves each `epsilon[m]` no
larger than it was at the start of the pass. -/
theorem invert_epsilon_nonincreasing {V F : Type} (cfg : Config V F)
    (innerFuel N : ℕ) (model0 : Model V F)
    (tr : List (St V F × Branch × St V F))
    (h0 : 0 ≤ cfg.epsilon0)
    (h : runTrace cfg innerFuel N (initSt cfg model0) = some tr) :
    ∀ p ∈ tr, ∀ j : Fin 2, p.2.2.epsilon j ≤ p.1.epsilon j := by
  intro p hp j
  exact (runTrace_epsilon cfg innerFuel N _ tr h (fun _ => h0) p hp j).2

/-- Concrete instance of the epsilon-monotonicity claim. -/
theorem invert_epsilon_nonincreasing_witness :
    (0 ≤ exCfg.epsilon0 ∧
      runTrace exCfg 1 3 (initSt exCfg exModel) =
        some ((runTrace exCfg 1 3 (initSt exCfg exModel)).getD [])) ∧
    (∀ p ∈ (runTrace exCfg 1 3 (initSt exCfg exModel)).getD [], ∀ j : Fin 2,
      p.2.2.epsilon j ≤ p.1.epsilon j) :=
  ⟨⟨by decide, rfl⟩,
    invert_epsilon_nonincreasing exCfg 1 3 exModel _ (by decide) rfl⟩

/-- C5 counterexample: the retry loop modifies more than `epsilon[m]` and
`model_v_proposed` — its first action `copy(model, model_v, mask)` rewrites
`model_v`, as this stale-snapshot state shows. -/
theorem retry_loop_modifies_model_v :
    (retryStep exCfg (mIdx staleSt) 1 staleSt).map St.model_v ≠
      some staleSt.model_v := by
  decide

/-- C5 (amended): a proposal rejected by the validator leaves the live
model completely unchanged — the retry loop never writes the model, which
is written from `model_v_proposed` only after `validate` returns true; the
loop touches only `epsilon[m]`, `model_v_proposed`, and `model_v` (the
latter rewritten each attempt to the flattening of the unchanged model). -/
theorem retry_loop_model_frame {V F : Type} (cfg : Config V F) (m : Fin 2)
    (fuel : ℕ) (s s1 : St V F) (h : retryStep cfg m fuel s = some s1) :
    s1.model = s.model ∧
    cfg.validate s1.model_v_proposed = true ∧
    s1.model_v = copyToVector s.model ∧
    s1.like = s.like ∧ s1.last_like = s.last_like ∧
    s1.iterations = s.iterations ∧
    ∀ j, j ≠ m → s1.epsilon j = s.epsilon j := by
  obtain ⟨h1, h2, h3, h4, h5, h6, h7, h8⟩ := retryStep_frame cfg m fuel s s1 h
  exact ⟨h1, h6, h5, h2, h3, h4, h8⟩

/-- Concrete instance of the amended retry-loop frame property. -/
theorem retry_loop_model_frame_witness :
    (retryStep exCfg (mIdx staleSt) 1 staleSt = some staleSt1) ∧
    (staleSt1.model = staleSt.model ∧
     exCfg.validate staleSt1.model_v_proposed = true ∧
     staleSt1.model_v = copyToVector staleSt.model ∧
     staleSt1.like = staleSt.like ∧ staleSt1.last_like = staleSt.last_like ∧
     staleSt1.iterations = staleSt.iterations ∧
     ∀ j, j ≠ mIdx staleSt → staleSt1.epsilon j = staleSt.epsilon j) :=
  ⟨rfl, retry_loop_model_frame exCfg (mIdx staleSt) 1 staleSt staleSt1 rfl⟩

/-- C7: the driver does not branch on the boolean returned by
`ComputeStep` — replacing that boolean by any function whatsoever leaves
every run of `invert` unchanged, so a failed step silently proceeds to
prior validation exactly as a successful one, and no error is raised. -/
theorem invert_ignores_compute_step_flag {V F : Type} (cfg : Config V F)
    (f : Fin 2 → ℚ → Model V F → Bool) (model0 : Model V F)
    (innerFuel outerFuel : ℕ) :
    invert { cfg with computeStepOk := f } model0 innerFuel outerFuel =
      invert cfg model0 innerFuel outerFuel :=
  invert_congr { cfg with computeStepOk := f } cfg
    rfl rfl rfl rfl rfl rfl rfl model0 innerFuel outerFuel

/-- C8 counterexample: strategy selection is not driven by the external
`mode` flag — two configurations that differ only in `mode` produce
identical runs at this concrete input. -/
theorem mode_flag_unused_counterexample :
    ({ exCfg with mode := 0 } : Config ℚ ℚ).mode ≠
      ({ exCfg with mode := 1 } : Config ℚ ℚ).mode ∧
    invert { exCfg with mode := 0 } exModel 1 5 =
      invert { exCfg with mode := 1 } exModel 1 5 := by
  constructor
  · decide
  · exact (invert_congr { exCfg with mode := 0 } exCfg
        rfl rfl rfl rfl rfl rfl rfl exModel 1 5).trans
      (invert_congr { exCfg with mode := 1 } exCfg
        rfl rfl rfl rfl rfl rfl rfl exModel 1 5).symm

/-- C8 (amended): the `mode` argument is received but never used by the
loop — changing it changes nothing — and step-strategy selection is driven
solely by iteration parity, `m = iterations % 2`, so the loop interleaves
the two strategies round-robin. -/
theorem strategy_selection_parity {V F : Type} (cfg : Config V F) (z : ℤ)
    (model0 : Model V F) (innerFuel outerFuel : ℕ) (s : St V F) :
    invert { cfg with mode := z } model0 innerFuel outerFuel =
      invert cfg model0 innerFuel outerFuel ∧
    (mIdx s).val = s.iterations % 2 :=
  ⟨invert_congr { cfg with mode := z } cfg
      rfl rfl rfl rfl rfl rfl rfl model0 innerFuel outerFuel, rfl⟩

/-- C9: every terminating execution of `invert` returns `true`; prior
violations, backtracks and floor exits never surface through the return
value. -/
theorem invert_returns_true {V F : Type} (cfg : Config V F)
    (model0 : Model V F) (innerFuel outerFuel : ℕ) (r : Bool × St V F)
    (h : invert cfg model0 innerFuel outerFuel = some r) : r.1 = true := by
  unfold invert at h
  cases hl : runLoop cfg innerFuel outerFuel (initSt cfg model0) with
  | none => rw [hl] at h; simp at h
  | some s =>
    rw [hl] at h
    simp only [Option.map_some'] at h
    cases h
    rfl

/-- Concrete instance of the always-true return claim. -/
theorem invert_returns_true_witness :
    (invert exCfg exModel 1 5 =
      some ((invert exCfg exModel 1 5).getD (true, simpleSt))) ∧
    ((invert exCfg exModel 1 5).getD (true, simpleSt)).1 = true :=
  ⟨rfl, invert_returns_true exCfg exModel 1 5 _ rfl⟩

/-- C10: the three `likelihood_love` call sites of `invert` pass identical
fixed configuration arguments — the damping, posterior flag, threshold,
order, high order, boundary order and scale received by `invert`, plus the
hard-coded `frequency_thin = 0.001` — so only the data and the model vary
between calls. -/
theorem likelihood_args_fixed {V F : Type} (cfg : Config V F) :
    initCallArgs cfg = evalCallArgs cfg ∧
    backtrackCallArgs cfg = evalCallArgs cfg ∧
    (evalCallArgs cfg).damping = cfg.damping ∧
    (evalCallArgs cfg).posterior = cfg.posterior ∧
    (evalCallArgs cfg).threshold = cfg.threshold ∧
    (evalCallArgs cfg).order = cfg.order ∧
    (evalCallArgs cfg).highorder = cfg.highorder ∧
    (evalCallArgs cfg).boundaryorder = cfg.boundaryorder ∧
    (evalCallArgs cfg).scale = cfg.scale ∧
    (evalCallArgs cfg).frequency_thin = frequencyThin ∧
    frequencyThin = 1 / 1000 :=
  ⟨rfl, rfl, rfl, rfl, rfl, rfl, rfl, rfl, rfl, rfl, rfl⟩

end AkiEstimate
